import Mathlib

/-!
Verification of the EmbedFS virtual path resolver and directory-synthesis
engine (`src/EmbedFS.cpp`).  The repository ships two implementation
variants of `EmbedFS.cpp`; the full, directory-synthesizing variant is
normative, and the minimal variant's `exists` is kept alongside for the
equivalence question.  Paths are modelled as `List Char`, blobs as
`List Nat` (byte values), null pointers as `Option`.
-/

namespace EmbedFS

/-- Paths are character lists (C strings without the terminator). -/
abbrev Path := List Char

/-- One row of the flat Entry Index: `(names_[i], data_[i], sizes_[i])`.
`name = none` models a null `names_[i]`; `data = none` a null data pointer. -/
structure Entry where
  name : Option Path
  data : Option (List Nat)
  size : Nat
  deriving DecidableEq, Repr

/-- Leading-slash strip: `if (!p.empty() && p.front() == '/') p.erase(0, 1);` -/
def dropLeading : Path → Path
  | [] => []
  | c :: rest => if c = '/' then rest else c :: rest

/-- Trailing-slash strip: `while (!p.empty() && p.back() == '/') p.pop_back();` — removes the
maximal run of trailing slashes. -/
def dropTrailing : Path → Path
  | [] => []
  | c :: rest =>
    match dropTrailing rest with
    | [] => if c = '/' then [] else [c]
    | r => c :: r

/-- Path normalization used by `EmbedFSImpl::open` / `EmbedFSImpl::exists`:
strip a single leading slash, then all trailing slashes. -/
def normalize (p : Path) : Path := dropTrailing (dropLeading p)

/-- Display form: `display = p.empty() ? "/" : "/" + p` -/
def displayOf (p : Path) : Path := if p = [] then ['/'] else '/' :: p

/-- The exact-match loop of `EmbedFSImpl::open`: first entry (null names
skipped) whose normalized name equals the normalized query. -/
def exactScan (es : List Entry) (p : Path) : Option Entry :=
  match es with
  | [] => none
  | en :: rest =>
    match en.name with
    | none => exactScan rest p
    | some n => if normalize n = p then some en else exactScan rest p

/-- The body of the directory-synthesis loop of `EmbedFSImpl::open` for one
normalized entry path `fn` against normalized query `p`: the optional
`(childPath, isDir)` pair passed to `addUnique` (`none` for the `continue`
branches). -/
def childOf (p : Path) (fn : Path) : Option (Path × Bool) :=
  if p = [] then
    if fn = [] then none
    else
      match fn.findIdx? (fun c => c = '/') with
      | some k => some ('/' :: fn.take k, true)
      | none => some ('/' :: fn, false)
  else
    let pre := p ++ ['/']
    if fn.length ≤ pre.length then none
    else if fn.take pre.length ≠ pre then none
    else
      let remainder := fn.drop pre.length
      if remainder = [] then none
      else
        match remainder.findIdx? (fun c => c = '/') with
        | some k => some ('/' :: p ++ '/' :: remainder.take k, true)
        | none => some ('/' :: p ++ '/' :: remainder, false)

/-- The `addUnique` lambda: find an accumulated child with the same path and
widen its `isDir` flag, otherwise push the new child at the back. -/
def addUnique (acc : List (Path × Bool)) (c : Path × Bool) : List (Path × Bool) :=
  match acc with
  | [] => [c]
  | e :: rest => if e.1 = c.1 then (e.1, e.2 || c.2) :: rest else e :: addUnique rest c

/-- One iteration of the directory-synthesis loop over the Entry Index
(null names skipped, entry names normalized in the loop body). -/
def childStep (p : Path) (acc : List (Path × Bool)) (en : Entry) : List (Path × Bool) :=
  match en.name with
  | none => acc
  | some n =>
    match childOf p (normalize n) with
    | none => acc
    | some c => addUnique acc c

/-- The synthesized (deduplicated) child list built by `EmbedFSImpl::open`
for normalized query `p`. -/
def scanChildren (es : List Entry) (p : Path) : List (Path × Bool) :=
  es.foldl (childStep p) []

/-- The undeduplicated stream of `(childPath, isDir)` pairs the scan feeds
to `addUnique`, in Entry-Index order. -/
def rawChildren (es : List Entry) (p : Path) : List (Path × Bool) :=
  es.filterMap (fun en => en.name.bind (fun n => childOf p (normalize n)))

/-- Result of `EmbedFSImpl::open`: an `EmbeddedFileImpl` (display path,
data pointer, size; position starts at 0) or an `EmbeddedDirImpl`
(display path, synthesized child list). `none` models a null
`FileImplPtr`. -/
inductive EmbedHandle where
  | file (display : Path) (data : Option (List Nat)) (size : Nat)
  | dir (display : Path) (children : List (Path × Bool))
  deriving DecidableEq, Repr

/-- Method `isDirectory()` of the returned handle: `false` on `EmbeddedFileImpl`,
`true` on `EmbeddedDirImpl`. -/
def EmbedHandle.isDirectory : EmbedHandle → Bool
  | .file _ _ _ => false
  | .dir _ _ => true

/-- Resolver `EmbedFSImpl::open` (full variant, lines 510-586): exact match first,
then directory synthesis; a directory handle is returned when at least one
child was found or the query is the root. -/
def embedOpen (es : List Entry) (q : Path) : Option EmbedHandle :=
  match exactScan es (normalize q) with
  | some en => some (.file (displayOf (normalize q)) en.data en.size)
  | none =>
    if scanChildren es (normalize q) ≠ [] ∨ normalize q = [] then
      some (.dir (displayOf (normalize q)) (scanChildren es (normalize q)))
    else none

/-- Exact-match test of one entry in `EmbedFSImpl::exists` (full variant). -/
def exactHit (en : Entry) (p : Path) : Bool :=
  match en.name with
  | none => false
  | some n => normalize n == p

/-- Prefix test of one entry in the second loop of `EmbedFSImpl::exists`
(full variant): `prefix.empty() || (fn.size() > prefix.size() &&
fn.compare(0, prefix.size(), prefix) == 0)`. -/
def prefHit (en : Entry) (p : Path) : Bool :=
  match en.name with
  | none => false
  | some n =>
    let fn := normalize n
    let pre := if p = [] then ([] : Path) else p ++ ['/']
    pre.isEmpty || (decide (pre.length < fn.length) && fn.take pre.length == pre)

/-- Resolver `EmbedFSImpl::exists` (full variant, lines 588-625). -/
def fullExists (es : List Entry) (q : Path) : Bool :=
  let p := normalize q
  if p = [] then true
  else if es.any (fun en => exactHit en p) then true
  else es.any (fun en => prefHit en p)

/-- Resolver `EmbedFSImpl::exists` (minimal variant, lines 150-158): raw `strcmp`
against each non-null name, no normalization. -/
def minimalExists (es : List Entry) (q : Path) : Bool :=
  es.any (fun en => en.name == some q)

/-- State of an `EmbeddedFileImpl` file handle: data pointer, `_size`,
`_pos` (the path/name strings carried by the handle are not needed by the
claims about it). -/
structure EmbeddedFile where
  data : Option (List Nat)
  size : Nat
  pos : Nat
  deriving DecidableEq, Repr

/-- Seek modes of the host FS contract. -/
inductive SeekMode where
  | seekSet
  | seekCur
  | seekEnd
  deriving DecidableEq, Repr

/-- Machine modulus of the library's 32-bit targets (ESP32-class boards):
in `EmbeddedFileImpl::seek` the offset is `uint32_t` and `_pos`/`_size`
are `size_t`, so the additions `_pos + pos` and `_size + pos` are
performed in unsigned arithmetic that wraps modulo `2^32`. -/
def wordMod : Nat := 2 ^ 32

/-- The mathematically exact (non-wrapping) candidate position named by
the spec: `offset`, `position + offset` or `size + offset` by mode. -/
def seekExact (f : EmbeddedFile) (off : Nat) (m : SeekMode) : Nat :=
  match m with
  | .seekSet => off
  | .seekCur => f.pos + off
  | .seekEnd => f.size + off

/-- The candidate `newpos` actually computed by `EmbeddedFileImpl::seek`:
the exact candidate reduced modulo the 32-bit word (for an in-range
`uint32_t` offset the `SeekSet` case is unchanged by the reduction). -/
def seekCandidate (f : EmbeddedFile) (off : Nat) (m : SeekMode) : Nat :=
  seekExact f off m % wordMod

/-- Method `EmbeddedFileImpl::seek` (lines 394-407): fails when
`newpos > _size`, otherwise commits — where `newpos` is the wrapped
unsigned sum, so an addition that overflows the 32-bit word can slip
past the bound check. -/
def EmbeddedFile.seek (f : EmbeddedFile) (off : Nat) (m : SeekMode) : Bool × EmbeddedFile :=
  let newpos := seekCandidate f off m
  if f.size < newpos then (false, f) else (true, ⟨f.data, f.size, newpos⟩)

/-- Method `EmbeddedFileImpl::read` (lines 374-390): returns the copied bytes and
the updated handle.  `buf[i] = _data[_pos + i]` is modelled by `List.getD`
(in contract the blob holds at least `_size` bytes). -/
def EmbeddedFile.read (f : EmbeddedFile) (len : Nat) : List Nat × EmbeddedFile :=
  match f.data with
  | none => ([], f)
  | some d =>
    if f.size ≤ f.pos then ([], f)
    else
      ((List.range (if len < f.size - f.pos then len else f.size - f.pos)).map
        (fun i => d.getD (f.pos + i) 0),
       ⟨f.data, f.size, f.pos + (if len < f.size - f.pos then len else f.size - f.pos)⟩)

/-- Method `EmbeddedFileImpl::close` (line 414) has an empty body — a no-op. -/
def EmbeddedFile.close (f : EmbeddedFile) : EmbeddedFile := f

/-- Validity `EmbeddedFileImpl::operator bool`: `_data != nullptr`. -/
def EmbeddedFile.toBool (f : EmbeddedFile) : Bool := f.data.isSome

/-- Total bytes delivered by a sequence of `read` calls with the given
requested lengths. -/
def readManyCount (f : EmbeddedFile) : List Nat → Nat
  | [] => 0
  | l :: ls => (f.read l).1.length + readManyCount (f.read l).2 ls

/-- State of the `EmbedFSFile` compat handle (minimal variant):
`dataPtr_`, `dataSize_`, `pos_`. -/
structure EmbedFSFile where
  dataPtr : Option (List Nat)
  dataSize : Nat
  pos : Nat
  deriving DecidableEq, Repr

/-- Method `EmbedFSFile::close` (lines 246-251): null the data pointer and zero
size and position. -/
def EmbedFSFile.close (_ : EmbedFSFile) : EmbedFSFile := ⟨none, 0, 0⟩

/-- Validity `EmbedFSFile::operator bool`: `dataPtr_ != nullptr`. -/
def EmbedFSFile.toBool (f : EmbedFSFile) : Bool := f.dataPtr.isSome

/-- State of the `EmbedFSFS` filesystem object: `_impl` (the installed
Entry Index, `none` while Unmounted) plus the four stored array
references. -/
structure EmbedFSFS where
  impl : Option (List Entry)
  fileNames : Option (List (Option Path))
  fileData : Option (List (Option (List Nat)))
  fileSizes : Option (List Nat)
  fileCount : Nat
  deriving DecidableEq, Repr

/-- The Entry Index built by `EmbedFSImpl`'s constructor from the four
parallel arrays: row `i` for `i < count` (indexing modelled by `getD`;
in contract the arrays hold at least `count` elements). -/
def mkEntries (names : List (Option Path)) (bufs : List (Option (List Nat)))
    (szs : List Nat) (cnt : Nat) : List Entry :=
  (List.range cnt).map (fun i => ⟨names.getD i none, bufs.getD i none, szs.getD i 0⟩)

/-- Lifecycle `EmbedFSFS::begin` (full variant, lines 681-691): fail on any null
array or zero count leaving the state untouched, otherwise install the
Entry Index and store the arrays. -/
def EmbedFSFS.begin (st : EmbedFSFS) (ns : Option (List (Option Path)))
    (bufs : Option (List (Option (List Nat)))) (szs : Option (List Nat))
    (cnt : Nat) : Bool × EmbedFSFS :=
  match ns, bufs, szs with
  | some nl, some dl, some sl =>
    if cnt = 0 then (false, st)
    else (true, ⟨some (mkEntries nl dl sl cnt), some nl, some dl, some sl, cnt⟩)
  | _, _, _ => (false, st)

/-- Lifecycle `EmbedFSFS::end`: drop the Entry Index and the stored arrays. -/
def fsEnd (_ : EmbedFSFS) : EmbedFSFS := ⟨none, none, none, none, 0⟩

/-- Wrapper `EmbedFSFS::exists` (lines 704-709): `false` while Unmounted. -/
def fsExists (st : EmbedFSFS) (q : Path) : Bool :=
  match st.impl with
  | none => false
  | some es => fullExists es q

/-- Wrapper `EmbedFSFS::open` (lines 710-715): an invalid `File()` while
Unmounted, modelled as `none`. -/
def fsOpen (st : EmbedFSFS) (q : Path) : Option EmbedHandle :=
  match st.impl with
  | none => none
  | some es => embedOpen es q

/-- An entry exactly matches normalized query `p` when its name is
non-null and normalizes to `p`. -/
def entryMatches (en : Entry) (p : Path) : Prop :=
  en.name.map normalize = some p

instance (en : Entry) (p : Path) : Decidable (entryMatches en p) := by
  unfold entryMatches; infer_instance

/-- First-seen-order deduplication of a list of keys. -/
def firstSeen : List Path → List Path
  | [] => []
  | x :: xs => x :: firstSeen (xs.filter (fun y => y ≠ x))
termination_by l => l.length
decreasing_by
  simp only [List.length_cons]
  exact Nat.lt_succ_of_le (List.length_filter_le _ _)

/-- Key-set update corresponding to one `addUnique` call. -/
def insKey (ks : List Path) (k : Path) : List Path :=
  if k ∈ ks then ks else ks ++ [k]

/-- The flag recorded for child path `cp` in a synthesized child list
(`none` when `cp` is not a child): lookup of the first occurrence. -/
def flagOf (cs : List (Path × Bool)) (cp : Path) : Option Bool :=
  (cs.find? (fun r => r.1 == cp)).map Prod.snd

/-! ### Helper lemmas about normalization -/

lemma dropTrailing_cons (c : Char) (rest : Path) :
    dropTrailing (c :: rest) = match dropTrailing rest with
      | [] => if c = '/' then [] else [c]
      | r => c :: r := rfl

lemma dropTrailing_idem (l : Path) : dropTrailing (dropTrailing l) = dropTrailing l := by
  induction l with
  | nil => rfl
  | cons c rest ih =>
    cases h : dropTrailing rest with
    | nil =>
      by_cases hc : c = '/'
      · simp [dropTrailing, h, hc]
      · simp [dropTrailing, h, hc]
    | cons x xs =>
      have hxx : dropTrailing (x :: xs) = x :: xs := by
        rw [h] at ih; exact ih
      have h1 : dropTrailing (c :: rest) = c :: x :: xs := by
        rw [dropTrailing_cons, h]
      rw [h1, dropTrailing_cons, hxx]

lemma dropTrailing_cons_shape (c : Char) (rest : Path) :
    dropTrailing (c :: rest) = [] ∨ ∃ t, dropTrailing (c :: rest) = c :: t := by
  cases h : dropTrailing rest with
  | nil =>
    by_cases hc : c = '/'
    · left; simp [dropTrailing, h, hc]
    · right; exact ⟨[], by simp [dropTrailing, h, hc]⟩
  | cons x xs => right; exact ⟨x :: xs, by simp [dropTrailing, h]⟩

lemma normalize_head_not_slash (c : Char) (rest : Path) (hc : c ≠ '/') :
    normalize (c :: rest) = dropTrailing (c :: rest) := by
  unfold normalize dropLeading
  simp [hc]

/-- Normalizing a path that does not start with a slash, or starts with a
single slash followed by a non-slash, is stable under a second
normalization. -/
lemma normalize_dropTrailing_not_slash (c : Char) (rest : Path) (hc : c ≠ '/') :
    normalize (dropTrailing (c :: rest)) = dropTrailing (c :: rest) := by
  rcases dropTrailing_cons_shape c rest with h0 | ⟨t, ht⟩
  · rw [h0]; rfl
  · rw [ht]
    rw [normalize_head_not_slash c t hc, ← ht, dropTrailing_idem]

/-! ### Helper lemmas about the exact-match scan -/

lemma entryMatches_some {en : Entry} {n : Path} {p : Path} (hn : en.name = some n) :
    entryMatches en p ↔ normalize n = p := by
  unfold entryMatches
  rw [hn]
  simp

lemma exactScan_eq_none (es : List Entry) (p : Path)
    (h : ∀ en ∈ es, ¬ entryMatches en p) : exactScan es p = none := by
  induction es with
  | nil => rfl
  | cons en rest ih =>
    have hrest := ih (fun e he => h e (List.mem_cons_of_mem _ he))
    cases hn : en.name with
    | none =>
      simp only [exactScan, hn]
      exact hrest
    | some n =>
      simp only [exactScan, hn]
      rw [if_neg (fun hq => h en (List.mem_cons_self _ _) ((entryMatches_some hn).mpr hq))]
      exact hrest

lemma exactScan_append_first (l1 l2 : List Entry) (en : Entry) (p : Path)
    (h1 : ∀ e ∈ l1, ¬ entryMatches e p) (h2 : entryMatches en p) :
    exactScan (l1 ++ en :: l2) p = some en := by
  induction l1 with
  | nil =>
    cases hn : en.name with
    | none => unfold entryMatches at h2; rw [hn] at h2; simp at h2
    | some n =>
      have hq : normalize n = p := (entryMatches_some hn).mp h2
      simp [exactScan, hn, hq]
  | cons e rest ih =>
    have hrest := ih (fun x hx => h1 x (List.mem_cons_of_mem _ hx))
    rw [List.cons_append]
    cases hn : e.name with
    | none =>
      simp only [exactScan, hn]
      exact hrest
    | some n =>
      simp only [exactScan, hn]
      rw [if_neg (fun hq => h1 e (List.mem_cons_self _ _) ((entryMatches_some hn).mpr hq))]
      exact hrest

/-! ### Helper lemmas about the dedup fold -/

lemma childStep_name_none (p : Path) (acc : List (Path × Bool)) (en : Entry)
    (hn : en.name = none) : childStep p acc en = acc := by
  simp only [childStep, hn]

lemma childStep_child_none (p : Path) (acc : List (Path × Bool)) (en : Entry) (n : Path)
    (hn : en.name = some n) (hc : childOf p (normalize n) = none) :
    childStep p acc en = acc := by
  simp only [childStep, hn, hc]

lemma childStep_child_some (p : Path) (acc : List (Path × Bool)) (en : Entry) (n : Path)
    (c : Path × Bool) (hn : en.name = some n) (hc : childOf p (normalize n) = some c) :
    childStep p acc en = addUnique acc c := by
  simp only [childStep, hn, hc]

lemma scanChildren_eq_foldRaw (p : Path) :
    ∀ (es : List Entry) (acc : List (Path × Bool)),
      es.foldl (childStep p) acc = (rawChildren es p).foldl addUnique acc := by
  intro es
  induction es with
  | nil => intro acc; rfl
  | cons en rest ih =>
    intro acc
    rw [List.foldl_cons]
    cases hn : en.name with
    | none =>
      have hr : rawChildren (en :: rest) p = rawChildren rest p := by
        simp only [rawChildren, List.filterMap_cons, hn, Option.none_bind]
      rw [hr, childStep_name_none p acc en hn]
      exact ih acc
    | some n =>
      cases hc : childOf p (normalize n) with
      | none =>
        have hr : rawChildren (en :: rest) p = rawChildren rest p := by
          simp only [rawChildren, List.filterMap_cons, hn, Option.some_bind, hc]
        rw [hr, childStep_child_none p acc en n hn hc]
        exact ih acc
      | some c =>
        have hr : rawChildren (en :: rest) p = c :: rawChildren rest p := by
          simp only [rawChildren, List.filterMap_cons, hn, Option.some_bind, hc]
        rw [hr, childStep_child_some p acc en n c hn hc, List.foldl_cons]
        exact ih (addUnique acc c)

lemma addUnique_cons (e : Path × Bool) (rest : List (Path × Bool)) (c : Path × Bool) :
    addUnique (e :: rest) c =
      if e.1 = c.1 then (e.1, e.2 || c.2) :: rest else e :: addUnique rest c := rfl

lemma addUnique_keys (acc : List (Path × Bool)) (c : Path × Bool) :
    (addUnique acc c).map Prod.fst = insKey (acc.map Prod.fst) c.1 := by
  induction acc with
  | nil => simp [addUnique, insKey]
  | cons e rest ih =>
    by_cases he : e.1 = c.1
    · have hmem : c.1 ∈ (e :: rest).map Prod.fst := by
        rw [List.map_cons]
        exact he ▸ List.mem_cons_self _ _
      simp [addUnique_cons, he, insKey, hmem]
    · have hne : c.1 ≠ e.1 := fun h => he h.symm
      rw [addUnique_cons, if_neg he, List.map_cons, List.map_cons, ih]
      unfold insKey
      by_cases hm : c.1 ∈ rest.map Prod.fst
      · rw [if_pos hm, if_pos (List.mem_cons_of_mem _ hm)]
      · rw [if_neg hm, if_neg (by simp [hne, hm])]
        simp

lemma foldl_addUnique_keys :
    ∀ (rs : List (Path × Bool)) (acc : List (Path × Bool)),
      ((rs.foldl addUnique acc).map Prod.fst) =
        (rs.map Prod.fst).foldl insKey (acc.map Prod.fst) := by
  intro rs
  induction rs with
  | nil => intro acc; rfl
  | cons c rest ih =>
    intro acc
    rw [List.foldl_cons, List.map_cons, List.foldl_cons, ← addUnique_keys]
    exact ih (addUnique acc c)

lemma firstSeen_cons (x : Path) (xs : List Path) :
    firstSeen (x :: xs) = x :: firstSeen (xs.filter (fun y => y ≠ x)) := by
  rw [firstSeen]

lemma foldl_insKey_firstSeen :
    ∀ (l : List Path) (ks : List Path),
      l.foldl insKey ks = ks ++ firstSeen (l.filter (fun y => y ∉ ks)) := by
  intro l
  induction l with
  | nil => intro ks; simp [firstSeen]
  | cons x xs ih =>
    intro ks
    rw [List.foldl_cons]
    by_cases hx : x ∈ ks
    · have hik : insKey ks x = ks := by unfold insKey; rw [if_pos hx]
      rw [hik, ih ks]
      have hfc : List.filter (fun y => decide (y ∉ ks)) (x :: xs) =
          List.filter (fun y => decide (y ∉ ks)) xs := by
        rw [List.filter_cons]
        simp [hx]
      rw [hfc]
    · have hik : insKey ks x = ks ++ [x] := by unfold insKey; rw [if_neg hx]
      rw [hik, ih (ks ++ [x]), List.append_assoc]
      have hfc : List.filter (fun y => decide (y ∉ ks)) (x :: xs) =
          x :: List.filter (fun y => decide (y ∉ ks)) xs := by
        rw [List.filter_cons]
        simp [hx]
      rw [hfc, firstSeen_cons]
      have hff : (List.filter (fun y => decide (y ∉ ks)) xs).filter (fun y => y ≠ x) =
          xs.filter (fun y => decide (y ∉ ks ++ [x])) := by
        rw [List.filter_filter]
        apply List.filter_congr
        intro y _
        have hiff : (y ∉ ks ++ [x]) ↔ ((y ≠ x) ∧ (y ∉ ks)) := by
          simp [List.mem_append, not_or, and_comm]
        rw [decide_eq_decide.mpr hiff, Bool.decide_and]
      rw [hff]
      simp

lemma scanChildren_keys (es : List Entry) (p : Path) :
    (scanChildren es p).map Prod.fst = firstSeen ((rawChildren es p).map Prod.fst) := by
  unfold scanChildren
  rw [scanChildren_eq_foldRaw p es [], foldl_addUnique_keys, foldl_insKey_firstSeen]
  have : List.filter (fun y => decide (y ∉ ([] : List Path)))
      ((rawChildren es p).map Prod.fst) = (rawChildren es p).map Prod.fst := by
    apply List.filter_eq_self.mpr
    intro y _
    simp
  rw [List.map_nil, this, List.nil_append]

lemma flagOf_cons (e : Path × Bool) (rest : List (Path × Bool)) (cp : Path) :
    flagOf (e :: rest) cp = if e.1 = cp then some e.2 else flagOf rest cp := by
  unfold flagOf
  by_cases h : e.1 = cp
  · simp [List.find?_cons, h]
  · simp [List.find?_cons, h]

lemma flagOf_addUnique (acc : List (Path × Bool)) (c : Path × Bool) (cp : Path) :
    flagOf (addUnique acc c) cp =
      if c.1 = cp then some ((flagOf acc cp).getD false || c.2) else flagOf acc cp := by
  induction acc with
  | nil =>
    by_cases h : c.1 = cp <;> simp [addUnique, flagOf_cons, flagOf, h]
  | cons e rest ih =>
    by_cases he : e.1 = c.1
    · have ha : addUnique (e :: rest) c = (e.1, e.2 || c.2) :: rest := by
        rw [addUnique_cons, if_pos he]
      rw [ha, flagOf_cons, flagOf_cons]
      by_cases hcp : e.1 = cp
      · have hc : c.1 = cp := he.symm.trans hcp
        simp [hcp, hc]
      · have hc : c.1 ≠ cp := fun h2 => hcp (he.trans h2)
        simp [hcp, hc]
    · have ha : addUnique (e :: rest) c = e :: addUnique rest c := by
        rw [addUnique_cons, if_neg he]
      rw [ha, flagOf_cons, flagOf_cons]
      by_cases hcp : e.1 = cp
      · have hc : c.1 ≠ cp := fun h2 => he (hcp.trans h2.symm)
        simp [hcp, hc]
      · simp [hcp, ih]

lemma foldl_addUnique_flag :
    ∀ (rs : List (Path × Bool)) (acc : List (Path × Bool)) (cp : Path),
      flagOf (rs.foldl addUnique acc) cp =
        match flagOf acc cp with
        | some b0 => some (b0 || rs.any (fun r => r.1 == cp && r.2))
        | none =>
          if (rs.map Prod.fst).contains cp then
            some (rs.any (fun r => r.1 == cp && r.2))
          else none := by
  intro rs
  induction rs with
  | nil =>
    intro acc cp
    cases h : flagOf acc cp <;> simp [h]
  | cons c rest ih =>
    intro acc cp
    rw [List.foldl_cons, ih (addUnique acc c) cp, flagOf_addUnique]
    by_cases hc : c.1 = cp
    · subst hc
      cases h : flagOf acc c.1 <;>
        simp [h, List.any_cons, List.map_cons, List.contains_cons, Bool.or_assoc]
    · have hbeq : (c.1 == cp) = false := by simp [hc]
      have hc2 : ¬ cp = c.1 := fun h2 => hc h2.symm
      cases h : flagOf acc cp <;>
        simp [h, hc, hc2, hbeq, List.any_cons, List.map_cons, List.contains_cons]

lemma scanChildren_flag (es : List Entry) (p : Path) (cp : Path) :
    flagOf (scanChildren es p) cp =
      if ((rawChildren es p).map Prod.fst).contains cp then
        some ((rawChildren es p).any (fun r => r.1 == cp && r.2))
      else none := by
  unfold scanChildren
  rw [scanChildren_eq_foldRaw p es [], foldl_addUnique_flag]
  rfl

lemma firstSeen_eq_nil_iff (l : List Path) : firstSeen l = [] ↔ l = [] := by
  cases l with
  | nil => simp [firstSeen]
  | cons x xs => simp [firstSeen_cons]

lemma scanChildren_eq_nil_iff (es : List Entry) (p : Path) :
    scanChildren es p = [] ↔ rawChildren es p = [] := by
  constructor
  · intro h
    have hk := scanChildren_keys es p
    rw [h] at hk
    have h2 := (firstSeen_eq_nil_iff _).mp hk.symm
    exact List.map_eq_nil_iff.mp h2
  · intro h
    have hk := scanChildren_keys es p
    rw [h] at hk
    simp only [List.map_nil] at hk
    rw [(firstSeen_eq_nil_iff []).mpr rfl] at hk
    exact List.map_eq_nil_iff.mp hk

/-! ### Claim theorems (first batch) -/

/-- C6 counterexample: the claim "normalize(normalize(p)) equals
normalize(p) for every string p" fails at `p = "//a"`, where one
normalization yields `"/a"` and a second yields `"a"`. -/
theorem claim6_counterexample :
    normalize (normalize ['/', '/', 'a']) ≠ normalize ['/', '/', 'a'] := by decide

/-- C6 (amended): path normalization is idempotent for every string that
does not begin with two slashes (only a single leading slash is stripped,
so a second leading slash survives the first normalization and is
stripped by the second). -/
theorem claim6_normalize_idem (p : Path) (h : p.take 2 ≠ ['/', '/']) :
    normalize (normalize p) = normalize p := by
  cases p with
  | nil => rfl
  | cons c rest =>
    by_cases hc : c = '/'
    · subst hc
      have hn : normalize ('/' :: rest) = dropTrailing rest := by
        unfold normalize dropLeading; simp
      rw [hn]
      cases rest with
      | nil => rfl
      | cons d rest2 =>
        have hd : d ≠ '/' := by
          intro hdd
          exact h (by simp [List.take, hdd])
        exact normalize_dropTrailing_not_slash d rest2 hd
    · rw [normalize_head_not_slash c rest hc]
      exact normalize_dropTrailing_not_slash c rest hc

/-- C6 witness: idempotence at the concrete path `"/a/"`. -/
theorem claim6_witness :
    (List.take 2 ['/', 'a', '/'] ≠ ['/', '/']) ∧
    normalize (normalize ['/', 'a', '/']) = normalize ['/', 'a', '/'] :=
  ⟨by decide, claim6_normalize_idem ['/', 'a', '/'] (by decide)⟩

/-- C4 counterexample: on the 32-bit targets the unsigned addition wraps:
with size 1 and position 1, `seek(2^32 - 1, FromCurrent)` has the exact
candidate `1 + (2^32 - 1) = 2^32`, outside `[0, 1]`, so the claim
requires failure with no state change — but `newpos` wraps to 0, passes
the `newpos > _size` check, and the call succeeds, setting position 0. -/
theorem claim4_counterexample :
    1 < 1 + (2 ^ 32 - 1) ∧
    EmbeddedFile.seek ⟨some [7], 1, 1⟩ (2 ^ 32 - 1) SeekMode.seekCur =
      (true, ⟨some [7], 1, 0⟩) := by decide

/-- C4 (amended): `seek` computes the candidate in wrapping 32-bit
unsigned arithmetic (`offset`, `pos + offset` or `size + offset`, each
modulo `2^32`); the wrapped candidate beyond `size` fails with the
handle unchanged, otherwise the position is set to the wrapped candidate
and the call succeeds.  Whenever the exact candidate does not overflow
the 32-bit word, this coincides with the claimed behavior: a candidate
outside `[0, size]` fails with no state change, otherwise it commits
(offsets are unsigned, so the candidate is never below 0). -/
theorem claim4_seek_bounds (f : EmbeddedFile) (off : Nat) (m : SeekMode)
    (_hp : f.pos ≤ f.size) (_hoff : off < 2 ^ 32) (_hsz : f.size < 2 ^ 32) :
    (f.size < seekCandidate f off m → f.seek off m = (false, f)) ∧
    (seekCandidate f off m ≤ f.size →
      f.seek off m = (true, ⟨f.data, f.size, seekCandidate f off m⟩)) ∧
    (seekExact f off m < 2 ^ 32 →
      (f.size < seekExact f off m → f.seek off m = (false, f)) ∧
      (seekExact f off m ≤ f.size →
        f.seek off m = (true, ⟨f.data, f.size, seekExact f off m⟩))) := by
  refine ⟨?_, ?_, ?_⟩
  · intro h
    unfold EmbeddedFile.seek
    rw [if_pos h]
  · intro h
    unfold EmbeddedFile.seek
    rw [if_neg (by omega)]
  · intro hlt
    have heq : seekCandidate f off m = seekExact f off m := by
      unfold seekCandidate wordMod
      exact Nat.mod_eq_of_lt hlt
    constructor
    · intro h
      unfold EmbeddedFile.seek
      rw [heq, if_pos h]
    · intro h
      unfold EmbeddedFile.seek
      rw [heq, if_neg (by omega)]

/-- C4 witness: on a handle of size 2 at position 1, `seek 1 FromCurrent`
succeeds moving to 2, and `seek 5 FromStart` fails leaving state
unchanged (no wrap occurs at these inputs). -/
theorem claim4_witness :
    EmbeddedFile.seek ⟨some [1, 2], 2, 1⟩ 1 SeekMode.seekCur = (true, ⟨some [1, 2], 2, 2⟩) ∧
    EmbeddedFile.seek ⟨some [1, 2], 2, 1⟩ 5 SeekMode.seekSet = (false, ⟨some [1, 2], 2, 1⟩) :=
  ⟨(((claim4_seek_bounds ⟨some [1, 2], 2, 1⟩ 1 SeekMode.seekCur (by decide) (by decide)
      (by decide)).2.2 (by decide)).2 (by decide)).trans (by decide),
   ((claim4_seek_bounds ⟨some [1, 2], 2, 1⟩ 5 SeekMode.seekSet (by decide) (by decide)
      (by decide)).2.2 (by decide)).1 (by decide)⟩

/-- C7: `begin` succeeds if and only if the three array arguments are
non-null and the count is positive; on failure the object is unchanged
(so an Unmounted object stays Unmounted); on success the Entry Index
built from the arrays is installed. -/
theorem claim7_begin_iff (st : EmbedFSFS) (ns : Option (List (Option Path)))
    (bufs : Option (List (Option (List Nat)))) (szs : Option (List Nat)) (cnt : Nat) :
    ((EmbedFSFS.begin st ns bufs szs cnt).1 = true ↔
      ns ≠ none ∧ bufs ≠ none ∧ szs ≠ none ∧ 0 < cnt) ∧
    ((EmbedFSFS.begin st ns bufs szs cnt).1 = false →
      (EmbedFSFS.begin st ns bufs szs cnt).2 = st) ∧
    ((EmbedFSFS.begin st ns bufs szs cnt).1 = true →
      ∃ nl dl sl, ns = some nl ∧ bufs = some dl ∧ szs = some sl ∧
        (EmbedFSFS.begin st ns bufs szs cnt).2.impl = some (mkEntries nl dl sl cnt)) := by
  cases ns with
  | none => simp [EmbedFSFS.begin]
  | some nl =>
    cases bufs with
    | none => simp [EmbedFSFS.begin]
    | some dl =>
      cases szs with
      | none => simp [EmbedFSFS.begin]
      | some sl =>
        by_cases hc : cnt = 0
        · simp [EmbedFSFS.begin, hc]
        · refine ⟨?_, ?_, ?_⟩
          · simp [EmbedFSFS.begin, hc, Nat.pos_of_ne_zero hc]
          · intro hfalse
            simp [EmbedFSFS.begin, hc] at hfalse
          · intro _
            exact ⟨nl, dl, sl, rfl, rfl, rfl, by simp [EmbedFSFS.begin, hc]⟩

/-- C8: while Unmounted (`_impl` null — the initial state, or after
`end()`), `exists` returns false and `open` returns an invalid handle for
every path, with no distinct not-mounted error. -/
theorem claim8_unmounted_noop (st : EmbedFSFS) (q : Path) (h : st.impl = none) :
    fsExists st q = false ∧ fsOpen st q = none ∧
    fsExists (fsEnd st) q = false ∧ fsOpen (fsEnd st) q = none := by
  refine ⟨?_, ?_, rfl, rfl⟩
  · unfold fsExists; rw [h]
  · unfold fsOpen; rw [h]

/-- C8 witness: the freshly constructed (Unmounted) filesystem object
rejects a concrete path. -/
theorem claim8_witness :
    fsExists ⟨none, none, none, none, 0⟩ ['/', 'x'] = false ∧
    fsOpen ⟨none, none, none, none, 0⟩ ['/', 'x'] = none ∧
    fsExists (fsEnd ⟨none, none, none, none, 0⟩) ['/', 'x'] = false ∧
    fsOpen (fsEnd ⟨none, none, none, none, 0⟩) ['/', 'x'] = none :=
  claim8_unmounted_noop ⟨none, none, none, none, 0⟩ ['/', 'x'] rfl

/-- C9 counterexample: the claim fails for `EmbeddedFileImpl` handles
(cited line 414): `close()` there is a no-op, so a bound handle keeps its
data reference and stays truthy after close. -/
theorem claim9_counterexample :
    EmbeddedFile.close ⟨some [1], 1, 0⟩ = (⟨some [1], 1, 0⟩ : EmbeddedFile) ∧
    EmbeddedFile.toBool (EmbeddedFile.close ⟨some [1], 1, 0⟩) = true := by decide

/-- C9 (amended): for the `EmbedFSFile` compat handle, `close` zeroes the
data reference, size and position, makes the boolean conversion false,
and is idempotent; `EmbeddedFileImpl::close` instead leaves the handle
completely unchanged (trivially idempotent, but not resetting). -/
theorem claim9_close_behavior :
    (∀ f : EmbedFSFile, EmbedFSFile.close f = (⟨none, 0, 0⟩ : EmbedFSFile) ∧
      EmbedFSFile.close (EmbedFSFile.close f) = EmbedFSFile.close f ∧
      EmbedFSFile.toBool (EmbedFSFile.close f) = false) ∧
    (∀ g : EmbeddedFile, EmbeddedFile.close g = g) :=
  ⟨fun _ => ⟨rfl, rfl, rfl⟩, fun _ => rfl⟩

/-- C10 counterexample: the two `exists` variants disagree: for the entry
list `[{name := "a"}]` and query `"/"`, the minimal variant (raw string
compare) returns false while the full variant (normalizing, root always
true) returns true. -/
theorem claim10_counterexample :
    minimalExists [⟨some ['a'], none, 0⟩] ['/'] = false ∧
    fullExists [⟨some ['a'], none, 0⟩] ['/'] = true := by decide

/-- C10 (amended): the variants are not equivalent; only one direction of
refinement holds: every path the minimal variant reports as existing, the
full variant reports as existing too. -/
theorem claim10_minimal_implies_full (es : List Entry) (q : Path)
    (h : minimalExists es q = true) : fullExists es q = true := by
  unfold minimalExists at h
  rw [List.any_eq_true] at h
  obtain ⟨en, hen, hq⟩ := h
  have hname : en.name = some q := by simpa using hq
  unfold fullExists
  by_cases hp : normalize q = []
  · simp [hp]
  · have hhit : exactHit en (normalize q) = true := by
      unfold exactHit; rw [hname]; simp
    have hany : (es.any fun en2 => exactHit en2 (normalize q)) = true :=
      List.any_eq_true.mpr ⟨en, hen, hhit⟩
    simp [hp, hany]

/-- C10 witness: a concrete raw-name hit reported by both variants. -/
theorem claim10_witness :
    minimalExists [⟨some ['a'], none, 0⟩] ['a'] = true ∧
    fullExists [⟨some ['a'], none, 0⟩] ['a'] = true :=
  ⟨by decide, claim10_minimal_implies_full [⟨some ['a'], none, 0⟩] ['a'] (by decide)⟩

/-- C1: when no entry matches the query exactly, `open` builds the child
list of the prefix scan: it returns a directory handle exactly when the
scan found at least one child or the query is the root, and the child
list is the first-seen-order deduplication of the scanned
`(childPath, isDir)` stream, with `isDirectory` widened to true when any
occurrence of the child path is a directory. -/
theorem claim1_dir_synthesis (es : List Entry) (q : Path)
    (hne : ∀ en ∈ es, ¬ entryMatches en (normalize q)) :
    embedOpen es q = (if normalize q = [] ∨ rawChildren es (normalize q) ≠ [] then
        some (EmbedHandle.dir (displayOf (normalize q)) (scanChildren es (normalize q)))
      else none) ∧
    (scanChildren es (normalize q)).map Prod.fst =
      firstSeen ((rawChildren es (normalize q)).map Prod.fst) ∧
    (∀ cp, flagOf (scanChildren es (normalize q)) cp =
      if ((rawChildren es (normalize q)).map Prod.fst).contains cp then
        some ((rawChildren es (normalize q)).any (fun r => r.1 == cp && r.2))
      else none) := by
  refine ⟨?_, scanChildren_keys es _, fun cp => scanChildren_flag es _ cp⟩
  unfold embedOpen
  rw [exactScan_eq_none es _ hne]
  by_cases h1 : normalize q = [] <;> by_cases h2 : rawChildren es (normalize q) = [] <;>
    simp [h1, h2, scanChildren_eq_nil_iff]

/-- C1 witness: with the single entry `/a/b/c.txt`, `open("/a")` yields a
directory handle with the single child `/a/b` marked as a directory. -/
theorem claim1_witness :
    embedOpen [⟨some ['/', 'a', '/', 'b', '/', 'c', '.', 't', 'x', 't'], none, 0⟩]
        ['/', 'a'] =
      some (EmbedHandle.dir ['/', 'a'] [(['/', 'a', '/', 'b'], true)]) := by
  have h := claim1_dir_synthesis
    [⟨some ['/', 'a', '/', 'b', '/', 'c', '.', 't', 'x', 't'], none, 0⟩]
    ['/', 'a'] (by decide)
  exact h.1.trans (by decide)

/-- C2: when the Entry Index splits as `l1 ++ en :: l2` with no exact
match in `l1` and `en` an exact match for the query, `open` returns a
file handle bound to `en`'s data and size (first match wins), and the
result is never a directory handle. -/
theorem claim2_exact_precedence (l1 l2 : List Entry) (en : Entry) (q : Path)
    (h1 : ∀ e ∈ l1, ¬ entryMatches e (normalize q))
    (h2 : entryMatches en (normalize q)) :
    embedOpen (l1 ++ en :: l2) q =
      some (EmbedHandle.file (displayOf (normalize q)) en.data en.size) ∧
    (embedOpen (l1 ++ en :: l2) q).map EmbedHandle.isDirectory = some false := by
  have hscan := exactScan_append_first l1 l2 en _ h1 h2
  constructor
  · unfold embedOpen
    rw [hscan]
  · unfold embedOpen
    rw [hscan]
    rfl

/-- C2 witness: query `/b` against entries `/b/c` (prefix sibling), `/b`
(first exact match, bound) and `b` (duplicate normalized match, ignored). -/
theorem claim2_witness :
    embedOpen [⟨some ['/', 'b', '/', 'c'], none, 0⟩,
        ⟨some ['/', 'b'], some [104, 105], 2⟩,
        ⟨some ['b'], some [9], 1⟩] ['/', 'b'] =
      some (EmbedHandle.file ['/', 'b'] (some [104, 105]) 2) ∧
    (embedOpen [⟨some ['/', 'b', '/', 'c'], none, 0⟩,
        ⟨some ['/', 'b'], some [104, 105], 2⟩,
        ⟨some ['b'], some [9], 1⟩] ['/', 'b']).map EmbedHandle.isDirectory = some false := by
  have h := claim2_exact_precedence [⟨some ['/', 'b', '/', 'c'], none, 0⟩]
    [⟨some ['b'], some [9], 1⟩] ⟨some ['/', 'b'], some [104, 105], 2⟩ ['/', 'b']
    (by decide) (by decide)
  exact ⟨h.1.trans (by decide), h.2⟩

/-- C3 counterexample: the claim fails when an entry's normalized path is
empty: after a successful `begin` with the single entry named `/`,
`open("/")` returns a file handle (exact match), not a directory
handle. -/
theorem claim3_counterexample :
    (EmbedFSFS.begin ⟨none, none, none, none, 0⟩
        (some [some ['/']]) (some [none]) (some [0]) 1).1 = true ∧
    Option.map EmbedHandle.isDirectory
      (fsOpen (EmbedFSFS.begin ⟨none, none, none, none, 0⟩
        (some [some ['/']]) (some [none]) (some [0]) 1).2 ['/']) = some false := by decide

/-- C3 (amended): after a successful `begin`, `exists("/")` is true and
`open("/")` never returns NoMatch; provided no entry's normalized path is
empty (no entry named `/`, the empty string or only slashes), `open("/")`
returns a directory handle at display path `/` enumerating the
deduplicated top-level children in first-seen Entry-Index order. -/
theorem claim3_root_directory (st : EmbedFSFS) (ns : Option (List (Option Path)))
    (bufs : Option (List (Option (List Nat)))) (szs : Option (List Nat)) (cnt : Nat)
    (st2 : EmbedFSFS) (es : List Entry)
    (_hb : EmbedFSFS.begin st ns bufs szs cnt = (true, st2))
    (hes : st2.impl = some es)
    (hroot : ∀ en ∈ es, ¬ entryMatches en []) :
    fsExists st2 ['/'] = true ∧
    fsOpen st2 ['/'] = some (EmbedHandle.dir ['/'] (scanChildren es [])) ∧
    (scanChildren es []).map Prod.fst = firstSeen ((rawChildren es []).map Prod.fst) ∧
    fsOpen st2 ['/'] ≠ none := by
  have hnorm : normalize ['/'] = [] := rfl
  have hopen : fsOpen st2 ['/'] = some (EmbedHandle.dir ['/'] (scanChildren es [])) := by
    simp only [fsOpen, hes]
    unfold embedOpen
    rw [hnorm]
    simp only [exactScan_eq_none es [] hroot]
    simp [displayOf]
  refine ⟨?_, hopen, scanChildren_keys es [], by rw [hopen]; simp⟩
  simp only [fsExists, hes]
  simp [fullExists, hnorm]

/-- C3 witness: a successful `begin` over the single entry `a/b`; the
root exists and lists the one synthesized child `/a` as a directory. -/
theorem claim3_witness :
    fsExists ⟨some [⟨some ['a', '/', 'b'], none, 2⟩], some [some ['a', '/', 'b']],
        some [none], some [2], 1⟩ ['/'] = true ∧
    fsOpen ⟨some [⟨some ['a', '/', 'b'], none, 2⟩], some [some ['a', '/', 'b']],
        some [none], some [2], 1⟩ ['/'] =
      some (EmbedHandle.dir ['/'] [(['/', 'a'], true)]) := by
  have h := claim3_root_directory ⟨none, none, none, none, 0⟩
    (some [some ['a', '/', 'b']]) (some [none]) (some [2]) 1
    ⟨some [⟨some ['a', '/', 'b'], none, 2⟩], some [some ['a', '/', 'b']],
      some [none], some [2], 1⟩
    [⟨some ['a', '/', 'b'], none, 2⟩] (by decide) (by decide) (by decide)
  exact ⟨h.1, h.2.1.trans (by decide)⟩

/-! ### Helper lemmas about read -/

lemma read_eq (f : EmbeddedFile) (d : List Nat) (len : Nat)
    (hd : f.data = some d) (hp : f.pos ≤ f.size) :
    f.read len = ((List.range (min len (f.size - f.pos))).map (fun i => d.getD (f.pos + i) 0),
      ⟨f.data, f.size, f.pos + min len (f.size - f.pos)⟩) := by
  obtain ⟨fd, fs, fp⟩ := f
  simp only at hd hp
  simp only [EmbeddedFile.read, hd]
  by_cases hle : fs ≤ fp
  · rw [if_pos hle]
    have h0 : fs - fp = 0 := by omega
    rw [h0, Nat.min_zero]
    simp
  · rw [if_neg hle]
    have hmin : (if len < fs - fp then len else fs - fp) = min len (fs - fp) := by
      rw [Nat.min_def]
      split_ifs <;> omega
    rw [hmin]

lemma range_map_getD (d : List Nat) (pos n : Nat) (h : pos + n ≤ d.length) :
    (List.range n).map (fun i => d.getD (pos + i) 0) = (d.drop pos).take n := by
  apply List.ext_getElem
  · simp
    omega
  · intro i h1 h2
    simp only [List.getElem_map, List.getElem_range, List.getElem_take, List.getElem_drop]
    rw [List.getD_eq_getElem]

lemma readManyCount_eq (lens : List Nat) :
    ∀ (f : EmbeddedFile) (d : List Nat), f.data = some d → f.pos ≤ f.size →
      readManyCount f lens = min (f.pos + lens.sum) f.size - f.pos := by
  induction lens with
  | nil =>
    intro f d _ hp
    simp only [readManyCount, List.sum_nil, Nat.add_zero]
    rw [Nat.min_eq_left hp]
    omega
  | cons l ls ih =>
    intro f d hd hp
    have hmr := Nat.min_le_right l (f.size - f.pos)
    unfold readManyCount
    rw [read_eq f d l hd hp]
    simp only [List.length_map, List.length_range, List.sum_cons]
    rw [ih ⟨f.data, f.size, f.pos + min l (f.size - f.pos)⟩ d hd (by simp only; omega)]
    simp only
    simp only [Nat.min_def]
    split_ifs <;> omega

/-- C5: a single `read` copies exactly `min(maxLen, size - pos)` bytes of
the backing range starting at `pos` into the buffer, advances the
position by that amount and returns that count; at or past end-of-data it
returns 0 bytes and changes nothing; and across any sequence of reads the
total delivered is `min(pos + requested, size) - pos`, so once the
requests total at least `size - pos` exactly that many bytes have been
delivered and every subsequent read returns 0. -/
theorem claim5_read_contract (f : EmbeddedFile) (d : List Nat) (len : Nat) (lens : List Nat)
    (hd : f.data = some d) (hw : f.size ≤ d.length) (hp : f.pos ≤ f.size) :
    (f.read len).1 = (d.drop f.pos).take (min len (f.size - f.pos)) ∧
    (f.read len).1.length = min len (f.size - f.pos) ∧
    (f.read len).2 = ⟨f.data, f.size, f.pos + min len (f.size - f.pos)⟩ ∧
    (f.size ≤ f.pos → f.read len = ([], f)) ∧
    readManyCount f lens = min (f.pos + lens.sum) f.size - f.pos := by
  have hr := read_eq f d len hd hp
  refine ⟨?_, ?_, ?_, ?_, readManyCount_eq lens f d hd hp⟩
  · rw [hr]
    exact range_map_getD d f.pos _ (by have := Nat.min_le_right len (f.size - f.pos); omega)
  · rw [hr]
    simp
  · rw [hr]
  · intro hle
    obtain ⟨fd, fs, fp⟩ := f
    simp only at hd hle
    simp only [EmbeddedFile.read, hd]
    rw [if_pos hle]

/-- C5 witness: a 3-byte file read in chunks of 2: the first read returns
the first two bytes, and three requests of 2 bytes deliver exactly 3
bytes in total. -/
theorem claim5_witness :
    (EmbeddedFile.read ⟨some [10, 20, 30], 3, 0⟩ 2).1 = [10, 20] ∧
    readManyCount ⟨some [10, 20, 30], 3, 0⟩ [2, 2, 2] = 3 := by
  have h := claim5_read_contract ⟨some [10, 20, 30], 3, 0⟩ [10, 20, 30] 2 [2, 2, 2]
    rfl (by decide) (by decide)
  exact ⟨h.1.trans (by decide), h.2.2.2.2.trans (by decide)⟩

end EmbedFS
